import Mathlib

/-!
Shallow embedding of the nntp Go package, a client for the news protocol
NNTP (RFC 3977).  Wire lines and byte strings are modelled as `List Char`
(Go `[]byte` / `string`), line lists as `List (List Char)`, and fallible
operations return `Except NErr`.  Every definition is translated from the
Go source (article.go, misc.go, group.go, nntp.go).
-/

namespace NNTP

/-- Abbreviation turning a string literal into the byte-list model. -/
def tl (s : String) : List Char := s.toList

/-- Errors produced by the client, following the Go error taxonomy:
ProtocolError strings, structured status errors carrying code and message
(Go type Error), transport read failures, io.ErrUnexpectedEOF, and Go
runtime panics (modelled explicitly so that totality claims are statable). -/
inductive NErr where
  | protocolErr : List Char → NErr
  | statusErr : Nat → List Char → NErr
  | transport : NErr
  | unexpectedEnd : NErr
  | panicked : NErr
deriving DecidableEq, Repr

instance {ε α : Type} [DecidableEq ε] [DecidableEq α] : DecidableEq (Except ε α) := fun x y =>
  match x, y with
  | .error a, .error b => decidable_of_iff (a = b) ⟨fun h => h ▸ rfl, fun h => by injection h⟩
  | .ok a, .ok b => decidable_of_iff (a = b) ⟨fun h => h ▸ rfl, fun h => by injection h⟩
  | .error _, .ok _ => isFalse (fun h => by injection h)
  | .ok _, .error _ => isFalse (fun h => by injection h)

/-- Result of bodyReader.Read processing one wire line (article.go lines
24-54): a Go runtime panic (out-of-range index), the terminating sentinel,
or an emitted content line. -/
inductive LineResult where
  | panic : LineResult
  | sentinel : LineResult
  | content : List Char → LineResult
deriving DecidableEq, Repr

/-- One body line as processed by bodyReader.Read (article.go lines 32-50):
the line comes from ReadBytes including the trailing newline byte; the code
first inspects b[len(b)-2] to canonicalize a CRLF ending (this Go index
expression panics when len(b) < 2), then stops on the bare dot sentinel,
then unescapes a doubled leading dot. -/
def processBodyLine (b : List Char) : LineResult :=
  if b.length < 2 then .panic
  else
    let b1 := if b.getD (b.length - 2) '\x00' = '\r'
      then b.take (b.length - 2) ++ ['\n'] else b
    if b1 = ['.', '\n'] then .sentinel
    else if b1.take 2 = ['.', '.'] then .content (b1.drop 1)
    else .content b1

/-- One body line as written by Conn.RawPost (nntp.go lines 460-467): the
trailing newline of the source line is already stripped; a leading dot is
doubled and the protocol CRLF ending appended. -/
def postEncodeLine (l : List Char) : List Char :=
  (if l.take 1 = ['.'] then ['.'] else []) ++ l ++ ['\r', '\n']

theorem length_append_two (x : List Char) (a b : Char) :
    (x ++ [a, b]).length = x.length + 2 := by simp

theorem getD_snd_last (x : List Char) (a b d : Char) :
    (x ++ [a, b]).getD ((x ++ [a, b]).length - 2) d = a := by
  have hl : (x ++ [a, b]).length - 2 = x.length := by simp
  rw [hl, List.getD_eq_getElem?_getD, List.getElem?_append_right (Nat.le_refl _)]
  simp

theorem take_pre_append (x : List Char) (a b : Char) :
    (x ++ [a, b]).take ((x ++ [a, b]).length - 2) = x := by
  have hl : (x ++ [a, b]).length - 2 = x.length := by simp
  rw [hl, List.take_append_of_le_length (Nat.le_refl _), List.take_length]

/-- Processing a wire line of the shape x ++ CRLF: the canonicalization
step rewrites it to x ++ LF. -/
theorem processBodyLine_crlf (x : List Char) :
    processBodyLine (x ++ ['\r', '\n']) =
      (if x ++ ['\n'] = ['.', '\n'] then .sentinel
       else if (x ++ ['\n']).take 2 = ['.', '.'] then .content ((x ++ ['\n']).drop 1)
       else .content (x ++ ['\n'])) := by
  have hlen : ¬ (x ++ ['\r', '\n']).length < 2 := by simp
  rw [processBodyLine, if_neg hlen]
  rw [getD_snd_last x '\r' '\n' '\x00']
  rw [if_pos rfl, take_pre_append]

/-- C10: bodyReader.Read panics on the one-byte wire line consisting of a
bare newline: the carriage-return canonicalization indexes b[len(b)-2],
which is out of range when len(b) = 1; every line of length at least 2 is
processed without a panic. -/
theorem bodyRead_panics_on_bare_newline :
    processBodyLine ['\n'] = .panic ∧
    ∀ b : List Char, 2 ≤ b.length → processBodyLine b ≠ .panic := by
  constructor
  · decide
  · intro b hb
    rw [processBodyLine, if_neg (by omega)]
    dsimp only
    split_ifs <;> simp

theorem bodyRead_panics_on_bare_newline_witness :
    processBodyLine ['\n'] = .panic ∧ processBodyLine (tl ".\n") ≠ .panic :=
  ⟨bodyRead_panics_on_bare_newline.1,
   bodyRead_panics_on_bare_newline.2 (tl ".\n") (by decide)⟩

/-- C4: encoding a body line for posting (double a leading dot, append
CRLF, RawPost nntp.go lines 460-467) followed by the bodyReader decode step
(canonicalize CRLF, stop at the bare dot sentinel, strip one dot from a
doubled leading dot, article.go lines 36-49) yields the original line; in
particular the posted line ..escaped travels as ...escaped plus CRLF on the
wire and decodes back to ..escaped. -/
theorem post_body_roundtrip :
    (∀ l : List Char, '\n' ∉ l →
      processBodyLine (postEncodeLine l) = .content (l ++ ['\n'])) ∧
    postEncodeLine (tl "..escaped") = tl "...escaped\r\n" ∧
    processBodyLine (tl "...escaped\r\n") = .content (tl "..escaped\n") := by
  refine ⟨?_, by decide, by decide⟩
  intro l _
  rw [postEncodeLine]
  by_cases hd : l.take 1 = ['.']
  · rw [if_pos hd]
    obtain ⟨t, rfl⟩ : ∃ t, l = '.' :: t := by
      cases l with
      | nil => simp at hd
      | cons c t =>
        refine ⟨t, ?_⟩
        simp [List.take] at hd
        rw [hd]
    have hre : (['.'] : List Char) ++ ('.' :: t) ++ ['\r', '\n'] =
        ('.' :: '.' :: t) ++ ['\r', '\n'] := by simp
    rw [hre, processBodyLine_crlf]
    have h1 : ¬ (('.' :: '.' :: t) ++ ['\n'] = ['.', '\n']) := by
      intro h
      have := congrArg List.length h
      simp at this
    rw [if_neg h1]
    have h2 : (('.' :: '.' :: t) ++ ['\n']).take 2 = ['.', '.'] := by
      simp [List.take]
    rw [if_pos h2]
    simp
  · rw [if_neg hd]
    cases l with
    | nil => decide
    | cons c t =>
      have hc : c ≠ '.' := by
        intro h
        exact hd (by simp [List.take, h])
      have hre : ([] : List Char) ++ (c :: t) ++ ['\r', '\n'] =
          (c :: t) ++ ['\r', '\n'] := by simp
      rw [hre, processBodyLine_crlf]
      have h1 : ¬ ((c :: t) ++ ['\n'] = ['.', '\n']) := by
        intro h
        rw [List.cons_append] at h
        exact hc (List.cons_eq_cons.mp h).1
      rw [if_neg h1]
      have h2 : ¬ (((c :: t) ++ ['\n']).take 2 = ['.', '.']) := by
        intro h
        rw [List.cons_append] at h
        simp at h
        exact hc h.1
      rw [if_neg h2]

theorem post_body_roundtrip_witness :
    processBodyLine (postEncodeLine (tl "..escaped")) = .content (tl "..escaped" ++ ['\n']) :=
  post_body_roundtrip.1 (tl "..escaped") (by decide)

/-- Strip a trailing CRLF or LF from a wire line, as Conn.readStrings does
(nntp.go lines 112-116). -/
def stripNl (line : List Char) : List Char :=
  if line.reverse.take 2 = ['\n', '\r'] then line.take (line.length - 2)
  else if line.reverse.take 1 = ['\n'] then line.take (line.length - 1)
  else line

/-- Conn.readStrings (nntp.go lines 105-123): read wire lines until the
bare dot terminator, stripping line endings; lines are kept verbatim
otherwise.  An exhausted transport before the terminator is a read error. -/
def readStringsM : List (List Char) → Except NErr (List (List Char))
  | [] => .error .transport
  | line :: rest =>
    if stripNl line = ['.'] then .ok []
    else (readStringsM rest).map (fun sv => stripNl line :: sv)

/-- Outcome of reading a whole body stream: terminated by the sentinel
(with the remaining transport input), transport failure, or a panic from
processBodyLine. -/
inductive BodyOutcome where
  | done : List (List Char) → BodyOutcome
  | failed : BodyOutcome
  | panicked : BodyOutcome
deriving DecidableEq, Repr

/-- Reading a body stream to completion through bodyReader.Read: the lines
emitted to the caller, and the outcome. -/
def readBody : List (List Char) → List (List Char) × BodyOutcome
  | [] => ([], .failed)
  | b :: rest =>
    match processBodyLine b with
    | .panic => ([], .panicked)
    | .sentinel => ([], .done rest)
    | .content s =>
      let p := readBody rest
      (s :: p.1, p.2)

/-- The line bodyReader.Read emits for a content wire line. -/
def decodeContent (b : List Char) : List Char :=
  match processBodyLine b with
  | .content s => s
  | _ => []

/-- C2 counterexample: a line-list reply (LIST, CAPABILITIES, NEWNEWS,
OVER all decode through Conn.readStrings) keeps a doubled leading dot
verbatim; the claimed un-stuffing to a single dot does not happen there. -/
theorem readStrings_keeps_doubled_dot :
    readStringsM [tl "..x\n", tl ".\n"] = .ok [tl "..x"] ∧ tl "..x" ≠ tl ".x" := by
  decide

/-- C2 (amended): across multi-line replies the sentinel line is consumed,
never emitted: a body stream emits exactly the decoded payload lines before
the sentinel, and a doubled leading dot on a body wire line is unescaped to
a single dot; line-list replies via readStrings never contain the bare dot
line and return the payload lines verbatim (line endings stripped, no dot
unescaping). -/
theorem multiline_decode_amended :
    (∀ pre suffix : List (List Char),
      (∀ b ∈ pre, processBodyLine b = .content (decodeContent b)) →
      readBody (pre ++ tl ".\n" :: suffix) = (pre.map decodeContent, .done suffix)) ∧
    (∀ s : List Char,
      processBodyLine ('.' :: '.' :: s ++ ['\r', '\n']) = .content ('.' :: s ++ ['\n'])) ∧
    (∀ input out, readStringsM input = .ok out → ['.'] ∉ out) ∧
    (∀ pre suffix : List (List Char),
      (∀ b ∈ pre, stripNl b ≠ ['.']) →
      readStringsM (pre ++ tl ".\n" :: suffix) = .ok (pre.map stripNl)) := by
  refine ⟨?_, ?_, ?_, ?_⟩
  · intro pre suffix hpre
    induction pre with
    | nil =>
      rw [List.nil_append, readBody,
        show processBodyLine (tl ".\n") = .sentinel from by decide]
      simp
    | cons b pre ih =>
      have hb := hpre b (List.mem_cons_self b pre)
      rw [List.cons_append, readBody, hb]
      rw [ih (fun x hx => hpre x (List.mem_cons_of_mem b hx))]
      simp
  · intro s
    have hre : '.' :: '.' :: s ++ ['\r', '\n'] = ('.' :: '.' :: s) ++ ['\r', '\n'] := by
      simp
    rw [hre, processBodyLine_crlf]
    have h1 : ¬ (('.' :: '.' :: s) ++ ['\n'] = ['.', '\n']) := by
      intro h
      have := congrArg List.length h
      simp at this
    rw [if_neg h1]
    have h2 : (('.' :: '.' :: s) ++ ['\n']).take 2 = ['.', '.'] := by
      simp [List.take]
    rw [if_pos h2]
    simp
  · intro input
    induction input with
    | nil =>
      intro out h
      simp [readStringsM] at h
    | cons line rest ih =>
      intro out h
      rw [readStringsM] at h
      by_cases hs : stripNl line = ['.']
      · rw [if_pos hs] at h
        simp only [Except.ok.injEq] at h
        subst h
        simp
      · rw [if_neg hs] at h
        cases hr : readStringsM rest with
        | error e =>
          rw [hr] at h
          simp [Except.map] at h
        | ok sv =>
          rw [hr] at h
          simp only [Except.map, Except.ok.injEq] at h
          subst h
          intro hmem
          rcases List.mem_cons.mp hmem with heq | hmem2
          · exact hs heq.symm
          · exact ih sv hr hmem2
  · intro pre suffix hpre
    induction pre with
    | nil =>
      rw [List.nil_append, readStringsM,
        if_pos (show stripNl (tl ".\n") = ['.'] from by decide)]
      rfl
    | cons b pre ih =>
      have hb := hpre b (List.mem_cons_self b pre)
      rw [List.cons_append, readStringsM, if_neg hb]
      rw [ih (fun x hx => hpre x (List.mem_cons_of_mem b hx))]
      rfl

theorem multiline_decode_amended_witness :
    readBody ([tl "a\r\n", tl "..b\r\n"] ++ tl ".\n" :: [tl "x\n"]) =
      ([tl "a\r\n", tl "..b\r\n"].map decodeContent, .done [tl "x\n"]) ∧
    (['.'] ∉ [tl "x"]) ∧
    readStringsM ([tl "x\r\n"] ++ tl ".\n" :: []) = .ok ([tl "x\r\n"].map stripNl) :=
  ⟨multiline_decode_amended.1 [tl "a\r\n", tl "..b\r\n"] [tl "x\n"] (by decide),
   multiline_decode_amended.2.2.1 [tl "x\r\n", tl ".\n"] [tl "x"] (by decide),
   multiline_decode_amended.2.2.2 [tl "x\r\n"] [] (by decide)⟩

/-- A transport I/O action: reading or writing one wire line. -/
inductive Event where
  | rd : List Char → Event
  | wr : List Char → Event
deriving DecidableEq, Repr

/-- Connection state (nntp.go lines 59-64): the closed flag, whether a
bodyReader is attached (c.br != nil) and whether it has already hit the
sentinel (its eof flag), and the unread transport input. -/
structure ConnM where
  closed : Bool
  brLive : Bool
  brEof : Bool
  input : List (List Char)
deriving DecidableEq, Repr

/-- The reads performed by bodyReader.discard (ioutil.ReadAll over
bodyReader.Read): one line per Read until sentinel, error, or panic. -/
def drainEvents : List (List Char) → List Event
  | [] => []
  | b :: rest =>
    match processBodyLine b with
    | .content _ => Event.rd b :: drainEvents rest
    | _ => [Event.rd b]

/-- The outcome of bodyReader.discard: remaining input after the sentinel,
or the first read error (transport end / panic). -/
def drainResult : List (List Char) → Except NErr (List (List Char))
  | [] => .error .transport
  | b :: rest =>
    match processBodyLine b with
    | .panic => .error .panicked
    | .sentinel => .ok rest
    | .content _ => drainResult rest

/-- ASCII whitespace as trimmed by strings.TrimSpace. -/
def isSpaceGo (c : Char) : Bool :=
  c = ' ' || c = '\t' || c = '\n' || c = '\r' || c = '\x0b' || c = '\x0c'

/-- strings.TrimSpace on the byte-list model. -/
def trimSpace (l : List Char) : List Char :=
  ((l.dropWhile isSpaceGo).reverse.dropWhile isSpaceGo).reverse

/-- Numeric value of an ASCII digit, none otherwise. -/
def digitVal (c : Char) : Option Nat :=
  if '0' ≤ c ∧ c ≤ '9' then some (c.toNat - 48) else none

/-- Digit-accumulating loop of strconv.ParseUint (base 10). -/
def parseUintGo (acc : Nat) : List Char → Option Nat
  | [] => some acc
  | c :: t =>
    match digitVal c with
    | none => none
    | some d => parseUintGo (10 * acc + d) t

/-- strconv.ParseUint(s, 10, 0): nonempty all-digit string. -/
def parseUintM (l : List Char) : Option Nat :=
  if l = [] then none else parseUintGo 0 l

/-- The expected-code mismatch test of Conn.cmd (nntp.go lines 167-169). -/
def cmdMismatch (e c : Nat) : Bool :=
  (decide (1 ≤ e) && decide (e < 10) && decide (c / 100 ≠ e)) ||
  (decide (10 ≤ e) && decide (e < 100) && decide (c / 10 ≠ e)) ||
  (decide (100 ≤ e) && decide (e < 1000) && decide (c ≠ e))

/-- The protocol line ending. -/
def crlf : List Char := ['\r', '\n']

/-- Conn.cmd (nntp.go lines 140-173): refuse when closed; drain a live
bodyReader and abort on its error; write the command line; read and parse
the status line; check the expected code.  The first component is the
trace of transport I/O actions performed. -/
def cmd (expectCode : Nat) (cl : List Char) (st : ConnM) :
    List Event × Except NErr (Nat × List Char × ConnM) :=
  if st.closed then ([], .error (.protocolErr (tl "connection closed")))
  else
    let draining := st.brLive && !st.brEof
    match (if draining then drainResult st.input else .ok st.input) with
    | .error e => ((if draining then drainEvents st.input else []), .error e)
    | .ok input1 =>
      let dtr := if draining then drainEvents st.input else []
      match input1 with
      | [] => (dtr ++ [.wr (cl ++ crlf)], .error .transport)
      | sl :: rest =>
        let line := trimSpace sl
        (dtr ++ [.wr (cl ++ crlf), .rd sl],
          if line.length < 4 then .error (.protocolErr (tl "short response: " ++ line))
          else if ¬ (line.getD 3 '\x00' = ' ') then
            .error (.protocolErr (tl "short response: " ++ line))
          else
            match parseUintM (line.take 3) with
            | none => .error (.protocolErr (tl "invalid response code: " ++ line))
            | some code =>
              let text := line.drop 4
              if cmdMismatch expectCode code then .error (.statusErr code text)
              else .ok (code, text, ⟨false, false, false, rest⟩))

theorem drainEvents_no_wr (input : List (List Char)) (l : List Char) :
    Event.wr l ∉ drainEvents input := by
  induction input with
  | nil => simp [drainEvents]
  | cons b rest ih =>
    rw [drainEvents]
    split <;> simp [ih]

/-- C1: when a not fully consumed body stream is outstanding, cmd performs
the full drain first and only then writes the command line; a drain failure
aborts the command with the drain error before anything is written; no
write event ever occurs among the drain reads. -/
theorem cmd_drains_before_write (e : Nat) (cl : List Char) (st : ConnM)
    (hcl : st.closed = false) (hlive : st.brLive = true) (heof : st.brEof = false) :
    (∀ er, drainResult st.input = .error er →
      (cmd e cl st).2 = .error er ∧ (cmd e cl st).1 = drainEvents st.input) ∧
    (∀ inp, drainResult st.input = .ok inp →
      ∃ tail, (cmd e cl st).1 = drainEvents st.input ++ Event.wr (cl ++ crlf) :: tail) ∧
    (∀ l, Event.wr l ∉ drainEvents st.input) := by
  obtain ⟨c0, b0, e0, i0⟩ := st
  simp only at hcl hlive heof
  subst hcl hlive heof
  refine ⟨?_, ?_, fun l => drainEvents_no_wr i0 l⟩
  · intro er her
    simp only [cmd, her]
    simp
  · intro inp hinp
    simp only [cmd, hinp]
    cases inp with
    | nil => exact ⟨[], by simp⟩
    | cons sl rest => exact ⟨[Event.rd sl], by simp⟩

theorem cmd_drains_before_write_witness :
    ∃ tail, (cmd 2 (tl "LIST")
        ⟨false, true, false, [tl "a\r\n", tl ".\r\n", tl "215 ok\r\n"]⟩).1 =
      drainEvents [tl "a\r\n", tl ".\r\n", tl "215 ok\r\n"] ++
        Event.wr (tl "LIST" ++ crlf) :: tail :=
  (cmd_drains_before_write 2 (tl "LIST")
      ⟨false, true, false, [tl "a\r\n", tl ".\r\n", tl "215 ok\r\n"]⟩
      rfl rfl rfl).2.1 [tl "215 ok\r\n"] (by decide)

/-- ASCII digit character for a value below 10. -/
def dChar (d : Nat) : Char := Char.ofNat (48 + d)

/-- The three ASCII digits of a status code below 1000. -/
def digits3 (c : Nat) : List Char := [dChar (c / 100), dChar (c / 10 % 10), dChar (c % 10)]

theorem digitVal_dChar (d : Nat) (h : d ≤ 9) : digitVal (dChar d) = some d := by
  interval_cases d <;> decide

theorem parseUintM_digits3 (c : Nat) (h : c ≤ 999) : parseUintM (digits3 c) = some c := by
  have h1 : c / 100 ≤ 9 := by omega
  have h2 : c / 10 % 10 ≤ 9 := by omega
  have h3 : c % 10 ≤ 9 := by omega
  rw [digits3, parseUintM, if_neg (by simp)]
  simp only [parseUintGo, digitVal_dChar _ h1, digitVal_dChar _ h2, digitVal_dChar _ h3,
    Option.some.injEq]
  omega

theorem digits3_length (c : Nat) : (digits3 c).length = 3 := by simp [digits3]

/-- cmd on a fresh connection (no pending body) with one status line
queued: the whole pipeline reduced to the status-line parse. -/
theorem cmd_no_drain (e : Nat) (cl sl : List Char) (rest : List (List Char)) :
    cmd e cl ⟨false, false, false, sl :: rest⟩ =
      ([Event.wr (cl ++ crlf), Event.rd sl],
        (if (trimSpace sl).length < 4 then
          .error (.protocolErr (tl "short response: " ++ trimSpace sl))
        else if ¬ ((trimSpace sl).getD 3 '\x00' = ' ') then
          .error (.protocolErr (tl "short response: " ++ trimSpace sl))
        else
          match parseUintM ((trimSpace sl).take 3) with
          | none => .error (.protocolErr (tl "invalid response code: " ++ trimSpace sl))
          | some code =>
            if cmdMismatch e code then .error (.statusErr code ((trimSpace sl).drop 4))
            else .ok (code, (trimSpace sl).drop 4, ⟨false, false, false, rest⟩))) := rfl

theorem cmd_parse_status (e c : Nat) (t cl : List Char) (rest : List (List Char))
    (hc : c ≤ 999)
    (htrim : trimSpace (digits3 c ++ ' ' :: t ++ ['\n']) = digits3 c ++ ' ' :: t) :
    (cmd e cl ⟨false, false, false, (digits3 c ++ ' ' :: t ++ ['\n']) :: rest⟩).2 =
      (if cmdMismatch e c then .error (.statusErr c t)
       else .ok (c, t, ⟨false, false, false, rest⟩)) := by
  rw [cmd_no_drain]
  dsimp only
  rw [htrim]
  have hlen : ¬ (digits3 c ++ ' ' :: t).length < 4 := by simp [digits3]
  rw [if_neg hlen]
  have hget : (digits3 c ++ ' ' :: t).getD 3 '\x00' = ' ' := by
    rw [List.getD_eq_getElem?_getD,
      show (3 : Nat) = (digits3 c).length from (digits3_length c).symm,
      List.getElem?_append_right (Nat.le_refl _)]
    simp
  rw [if_neg (by rw [hget]; simp)]
  have htake : (digits3 c ++ ' ' :: t).take 3 = digits3 c := by
    rw [show (3 : Nat) = (digits3 c).length from (digits3_length c).symm]
    exact List.take_left _ _
  rw [htake, parseUintM_digits3 c hc]
  have hdrop : (digits3 c ++ ' ' :: t).drop 4 = t := by
    rw [show digits3 c ++ ' ' :: t = (digits3 c ++ [' ']) ++ t from by simp,
      show (4 : Nat) = (digits3 c ++ [' ']).length from by simp [digits3]]
    exact List.drop_left _ _
  rw [hdrop]

/-- C3: the magnitude-based wildcard of the expected-code check: a 1-digit
expectation matches on the hundreds digit, a 2-digit expectation on the
leading two digits, a 3-digit expectation exactly, and 0 accepts anything;
on a mismatch cmd returns the structured status error carrying the actual
code and the reply text (not a ProtocolError), and on a match it returns
the code and text. -/
theorem cmd_expect_code (e c : Nat) :
    (1 ≤ e → e ≤ 9 → (cmdMismatch e c = false ↔ c / 100 = e)) ∧
    (10 ≤ e → e ≤ 99 → (cmdMismatch e c = false ↔ c / 10 = e)) ∧
    (100 ≤ e → e ≤ 999 → (cmdMismatch e c = false ↔ c = e)) ∧
    (e = 0 → cmdMismatch e c = false) ∧
    (∀ (t cl : List Char) (rest : List (List Char)),
      c ≤ 999 →
      trimSpace (digits3 c ++ ' ' :: t ++ ['\n']) = digits3 c ++ ' ' :: t →
      (cmdMismatch e c = true →
        (cmd e cl ⟨false, false, false, (digits3 c ++ ' ' :: t ++ ['\n']) :: rest⟩).2 =
          .error (.statusErr c t)) ∧
      (cmdMismatch e c = false →
        (cmd e cl ⟨false, false, false, (digits3 c ++ ' ' :: t ++ ['\n']) :: rest⟩).2 =
          .ok (c, t, ⟨false, false, false, rest⟩))) := by
  have hchar : cmdMismatch e c = true ↔
      (1 ≤ e ∧ e < 10 ∧ c / 100 ≠ e) ∨ (10 ≤ e ∧ e < 100 ∧ c / 10 ≠ e) ∨
      (100 ≤ e ∧ e < 1000 ∧ c ≠ e) := by
    rw [cmdMismatch]
    simp
    tauto
  have hfalse : cmdMismatch e c = false ↔ ¬ (cmdMismatch e c = true) := by
    cases cmdMismatch e c <;> simp
  refine ⟨?_, ?_, ?_, ?_, ?_⟩
  · intro h1 h2
    rw [hfalse, hchar]
    omega
  · intro h1 h2
    rw [hfalse, hchar]
    omega
  · intro h1 h2
    rw [hfalse, hchar]
    omega
  · intro h
    rw [hfalse, hchar]
    omega
  · intro t cl rest hc htrim
    constructor
    · intro hm
      rw [cmd_parse_status e c t cl rest hc htrim, hm]
      simp
    · intro hm
      rw [cmd_parse_status e c t cl rest hc htrim, hm]
      simp

theorem cmd_expect_code_witness :
    (cmdMismatch 2 200 = false ↔ 200 / 100 = 2) ∧
    (cmd 223 (tl "STAT") ⟨false, false, false, [digits3 223 ++ ' ' :: tl "0 <id>" ++ ['\n']]⟩).2 =
      .ok (223, tl "0 <id>", ⟨false, false, false, []⟩) :=
  ⟨(cmd_expect_code 2 200).1 (by decide) (by decide),
   ((cmd_expect_code 223 223).2.2.2.2 (tl "0 <id>") (tl "STAT") [] (by decide) (by decide)).2
     (by decide)⟩

/-- The in-place adjacent-duplicate drop of Conn.NewNews (nntp.go lines
211-218): each element equal to its predecessor in the sorted list is
dropped, keeping the first of each run. -/
def dedupAdjGo (prev : String) : List String → List String
  | [] => []
  | b :: t => if b = prev then dedupAdjGo b t else b :: dedupAdjGo b t

/-- Conn.NewNews post-processing (nntp.go lines 210-218): sort.Strings
(lexicographic byte order; modelled by insertionSort over the String
linear order, which yields the unique stable sorted permutation) followed
by the forward dedup pass. -/
def newNewsCanon (ids : List String) : List String :=
  match List.insertionSort (· ≤ ·) ids with
  | [] => []
  | a :: t => a :: dedupAdjGo a t

theorem dedupAdjGo_mem (t : List String) (prev x : String) :
    x ∈ prev :: dedupAdjGo prev t ↔ x ∈ prev :: t := by
  induction t generalizing prev with
  | nil => simp [dedupAdjGo]
  | cons b t2 ih =>
    rw [dedupAdjGo]
    by_cases hb : b = prev
    · subst hb
      rw [if_pos rfl]
      have hih := ih b
      simp only [List.mem_cons] at hih ⊢
      tauto
    · rw [if_neg hb]
      have hih := ih b
      simp only [List.mem_cons] at hih ⊢
      tauto

theorem dedupAdjGo_sorted (t : List String) (prev : String)
    (h : List.Sorted (· ≤ ·) (prev :: t)) :
    List.Sorted (· < ·) (prev :: dedupAdjGo prev t) := by
  induction t generalizing prev with
  | nil => simp [dedupAdjGo]
  | cons b t2 ih =>
    rw [dedupAdjGo]
    by_cases hb : b = prev
    · subst hb
      rw [if_pos rfl]
      exact ih b h.of_cons
    · rw [if_neg hb]
      have hle : prev ≤ b := (List.sorted_cons.mp h).1 b (by simp)
      have hlt : prev < b := lt_of_le_of_ne hle (fun he => hb he.symm)
      have hs2 : List.Sorted (· < ·) (b :: dedupAdjGo b t2) := ih b h.of_cons
      rw [List.sorted_cons]
      refine ⟨?_, hs2⟩
      intro y hy
      rcases List.mem_cons.mp hy with rfl | hy2
      · exact hlt
      · exact lt_trans hlt ((List.sorted_cons.mp hs2).1 y hy2)

/-- C8: the NEWNEWS identifier list is returned strictly sorted (hence
sorted lexicographically and free of duplicates) and contains exactly the
identifiers of the raw reply, for any input ordering and multiplicity. -/
theorem newNews_sorted_nodup (ids : List String) :
    List.Sorted (· < ·) (newNewsCanon ids) ∧
    (newNewsCanon ids).Nodup ∧
    ∀ s, s ∈ newNewsCanon ids ↔ s ∈ ids := by
  have hperm := List.perm_insertionSort (α := String) (· ≤ ·) ids
  have hsorted := List.sorted_insertionSort (α := String) (· ≤ ·) ids
  rw [newNewsCanon]
  cases hs : List.insertionSort (α := String) (· ≤ ·) ids with
  | nil =>
    refine ⟨by simp, by simp, fun s => ?_⟩
    rw [hs] at hperm
    simp [hperm.symm.mem_iff]
  | cons a t =>
    rw [hs] at hsorted hperm
    have h1 := dedupAdjGo_sorted t a hsorted
    refine ⟨h1, h1.nodup, fun s => ?_⟩
    rw [dedupAdjGo_mem t a s, hperm.mem_iff]

/-- Split off the part before the first occurrence of sep. -/
def splitOnce (sep : Char) : List Char → Option (List Char × List Char)
  | [] => none
  | c :: t =>
    if c = sep then some ([], t)
    else
      match splitOnce sep t with
      | none => none
      | some (a, b) => some (c :: a, b)

/-- strings.SplitN with a one-character separator and n > 0: at most n
fields, the last one unsplit. -/
def splitNChar (sep : Char) : Nat → List Char → List (List Char)
  | 0, _ => []
  | 1, l => [l]
  | n + 2, l =>
    match splitOnce sep l with
    | none => [l]
    | some (a, b) => a :: splitNChar sep (n + 1) b

/-- strconv.Atoi: optional sign followed by a nonempty digit string. -/
def atoiM (l : List Char) : Option Int :=
  match l with
  | '+' :: t => (parseUintM t).map (fun n => (n : Int))
  | '-' :: t => (parseUintM t).map (fun n => -(n : Int))
  | _ => (parseUintM l).map (fun n => (n : Int))

/-- Conn.Group response-text parsing (nntp.go lines 330-353): split into at
most 4 space-delimited tokens, require at least 3, parse the first three as
integers, ignore the trailing token. -/
def groupParse (line : List Char) : Except NErr (Int × Int × Int) :=
  let ss := splitNChar ' ' 4 line
  if ss.length < 3 then .error (.protocolErr (tl "bad group response: " ++ line))
  else
    match atoiM (ss.getD 0 []), atoiM (ss.getD 1 []), atoiM (ss.getD 2 []) with
    | some a, some b, some c => .ok (a, b, c)
    | _, _, _ => .error (.protocolErr (tl "bad group response: " ++ line))

/-- Conn.Group end to end: issue GROUP expecting 211, then parse the text. -/
def conGroup (st : ConnM) (g : List Char) : Except NErr (Int × Int × Int) :=
  match (cmd 211 (tl "GROUP " ++ g) st).2 with
  | .error e => .error e
  | .ok (_, line, _) => groupParse line

theorem splitOnce_append (sep : Char) (a b : List Char) (h : sep ∉ a) :
    splitOnce sep (a ++ sep :: b) = some (a, b) := by
  induction a with
  | nil => simp [splitOnce]
  | cons c t ih =>
    have hc : ¬ (c = sep) := fun he => h (he ▸ List.mem_cons_self c t)
    rw [List.cons_append, splitOnce, if_neg hc,
      ih (fun hm => h (List.mem_cons_of_mem c hm))]

theorem splitNChar_four (t1 t2 t3 r : List Char)
    (h1 : ' ' ∉ t1) (h2 : ' ' ∉ t2) (h3 : ' ' ∉ t3) :
    splitNChar ' ' 4 (t1 ++ ' ' :: (t2 ++ ' ' :: (t3 ++ ' ' :: r))) = [t1, t2, t3, r] := by
  have e1 := splitOnce_append ' ' t1 (t2 ++ ' ' :: (t3 ++ ' ' :: r)) h1
  have e2 := splitOnce_append ' ' t2 (t3 ++ ' ' :: r) h2
  have e3 := splitOnce_append ' ' t3 r h3
  simp only [splitNChar, e1, e2, e3]

/-- C9: Group splits the reply text into at most 4 space-delimited tokens,
returns the first three parsed as integers with any trailing free text
ignored, errors when fewer than 3 tokens or a non-numeric leading token is
present, and on the reply 211 with text 4 1 4 comp.lang.misc yields
(4, 1, 4) with no error. -/
theorem group_parse_spec (t1 t2 t3 r : List Char) (v1 v2 v3 : Int) :
    (' ' ∉ t1 → ' ' ∉ t2 → ' ' ∉ t3 →
      atoiM t1 = some v1 → atoiM t2 = some v2 → atoiM t3 = some v3 →
      groupParse (t1 ++ ' ' :: (t2 ++ ' ' :: (t3 ++ ' ' :: r))) = .ok (v1, v2, v3)) ∧
    (∀ line, (splitNChar ' ' 4 line).length < 3 →
      groupParse line = .error (.protocolErr (tl "bad group response: " ++ line))) ∧
    (∀ line,
      (atoiM ((splitNChar ' ' 4 line).getD 0 []) = none ∨
       atoiM ((splitNChar ' ' 4 line).getD 1 []) = none ∨
       atoiM ((splitNChar ' ' 4 line).getD 2 []) = none) →
      groupParse line = .error (.protocolErr (tl "bad group response: " ++ line))) ∧
    conGroup ⟨false, false, false, [tl "211 4 1 4 comp.lang.misc\r\n"]⟩ (tl "comp.lang.misc") =
      .ok (4, 1, 4) := by
  refine ⟨?_, ?_, ?_, by decide⟩
  · intro h1 h2 h3 ha1 ha2 ha3
    rw [groupParse]
    rw [splitNChar_four t1 t2 t3 r h1 h2 h3]
    rw [if_neg (by simp)]
    simp only [List.getD]
    simp [ha1, ha2, ha3]
  · intro line hlen
    rw [groupParse]
    rw [if_pos hlen]
  · intro line hnone
    rw [groupParse]
    by_cases hlen : (splitNChar ' ' 4 line).length < 3
    · rw [if_pos hlen]
    · rw [if_neg hlen]
      cases h0 : atoiM ((splitNChar ' ' 4 line).getD 0 []) <;>
        cases h1 : atoiM ((splitNChar ' ' 4 line).getD 1 []) <;>
          cases h2 : atoiM ((splitNChar ' ' 4 line).getD 2 []) <;>
            simp_all

theorem group_parse_spec_witness :
    groupParse (tl "4" ++ ' ' :: (tl "1" ++ ' ' :: (tl "4" ++ ' ' :: tl "comp.lang.misc"))) =
      .ok (4, 1, 4) :=
  (group_parse_spec (tl "4") (tl "1") (tl "4") (tl "comp.lang.misc") 4 1 4).1
    (by decide) (by decide) (by decide) (by decide) (by decide) (by decide)

/-- MessageOverview (nntp.go lines 224-234), with the date type abstract:
parseDate is not part of the sources here, so the decoder is parameterized
by an arbitrary date parser and zero value; every theorem below holds for
every such parser. -/
structure MessageOverviewM (Dt : Type) where
  MessageNumber : Int
  Subject : List Char
  From : List Char
  Date : Dt
  MessageId : List Char
  References : List (List Char)
  Bytes : Int
  Lines : Int
  Extra : List (List Char)
deriving DecidableEq, Repr

/-- strings.Split (unlimited): the cap length+1 can never be reached. -/
def splitAll (sep : Char) (l : List Char) : List (List Char) :=
  splitNChar sep (l.length + 1) l

/-- The field split of one overview line (nntp.go line 251). -/
def ovFields (line : List Char) : List (List Char) :=
  splitNChar '\t' 9 (trimSpace line)

/-- Decoding one OVER reply line (nntp.go lines 250-277): at least 8
tab-separated fields; message number, byte count and line count must parse
as integers; a date parse failure degrades to the zero date; the references
field is split on spaces; any ninth field is kept verbatim. -/
def overviewLineM {Dt : Type} (zero : Dt) (pd : List Char → Option Dt) (line : List Char) :
    Except NErr (MessageOverviewM Dt) :=
  let ss := ovFields line
  if ss.length < 8 then
    .error (.protocolErr (tl "short header listing line: " ++ line ++ tl (Nat.repr ss.length)))
  else
    match atoiM (ss.getD 0 []) with
    | none => .error (.protocolErr (tl "bad message number " ++ ss.getD 0 [] ++ tl " in line: " ++ line))
    | some num =>
      match atoiM (ss.getD 6 []) with
      | none => .error (.protocolErr (tl "bad byte count " ++ ss.getD 6 [] ++ tl " in line: " ++ line))
      | some byteCount =>
        match atoiM (ss.getD 7 []) with
        | none => .error (.protocolErr (tl "bad line count " ++ ss.getD 7 [] ++ tl " in line: " ++ line))
        | some lineCount =>
          .ok { MessageNumber := num, Subject := ss.getD 1 [], From := ss.getD 2 [],
                Date := (match pd (ss.getD 3 []) with | none => zero | some d => d),
                MessageId := ss.getD 4 [], References := splitAll ' ' (ss.getD 5 []),
                Bytes := byteCount, Lines := lineCount, Extra := ss.drop 8 }

/-- Conn.Overview over the reply lines (nntp.go lines 248-279): rows in
order, aborting the whole call on the first bad line. -/
def overviewListM {Dt : Type} (zero : Dt) (pd : List Char → Option Dt) :
    List (List Char) → Except NErr (List (MessageOverviewM Dt))
  | [] => .ok []
  | line :: rest =>
    match overviewLineM zero pd line with
    | .error e => .error e
    | .ok ov =>
      match overviewListM zero pd rest with
      | .error e => .error e
      | .ok t => .ok (ov :: t)

/-- C7: an overview line with fewer than 8 tab-separated fields is a
protocol error; an unparseable message number, byte count or line count is
a protocol error (and any failing line fails the whole Overview call);
an unparseable date is not an error and yields the zero date in that row;
a ninth field is preserved verbatim in Extra. -/
theorem overview_decode_spec {Dt : Type} (zero : Dt) (pd : List Char → Option Dt) :
    (∀ line, (ovFields line).length < 8 →
      ∃ m, overviewLineM zero pd line = .error (.protocolErr m)) ∧
    (∀ line, 8 ≤ (ovFields line).length →
      atoiM ((ovFields line).getD 0 []) = none →
      ∃ m, overviewLineM zero pd line = .error (.protocolErr m)) ∧
    (∀ line v0, 8 ≤ (ovFields line).length →
      atoiM ((ovFields line).getD 0 []) = some v0 →
      atoiM ((ovFields line).getD 6 []) = none →
      ∃ m, overviewLineM zero pd line = .error (.protocolErr m)) ∧
    (∀ line v0 v6, 8 ≤ (ovFields line).length →
      atoiM ((ovFields line).getD 0 []) = some v0 →
      atoiM ((ovFields line).getD 6 []) = some v6 →
      atoiM ((ovFields line).getD 7 []) = none →
      ∃ m, overviewLineM zero pd line = .error (.protocolErr m)) ∧
    (∀ line v0 v6 v7, 8 ≤ (ovFields line).length →
      atoiM ((ovFields line).getD 0 []) = some v0 →
      atoiM ((ovFields line).getD 6 []) = some v6 →
      atoiM ((ovFields line).getD 7 []) = some v7 →
      pd ((ovFields line).getD 3 []) = none →
      overviewLineM zero pd line =
        .ok { MessageNumber := v0, Subject := (ovFields line).getD 1 [],
              From := (ovFields line).getD 2 [], Date := zero,
              MessageId := (ovFields line).getD 4 [],
              References := splitAll ' ' ((ovFields line).getD 5 []),
              Bytes := v6, Lines := v7, Extra := (ovFields line).drop 8 }) ∧
    (∀ lines line e, line ∈ lines → overviewLineM zero pd line = .error e →
      ∃ e2, overviewListM zero pd lines = .error e2) := by
  refine ⟨?_, ?_, ?_, ?_, ?_, ?_⟩
  · intro line hlen
    rw [overviewLineM, if_pos hlen]
    exact ⟨_, rfl⟩
  · intro line hlen h0
    rw [overviewLineM, if_neg (by omega), h0]
    exact ⟨_, rfl⟩
  · intro line v0 hlen h0 h6
    rw [overviewLineM, if_neg (by omega), h0, h6]
    exact ⟨_, rfl⟩
  · intro line v0 v6 hlen h0 h6 h7
    rw [overviewLineM, if_neg (by omega), h0, h6, h7]
    exact ⟨_, rfl⟩
  · intro line v0 v6 v7 hlen h0 h6 h7 hd
    rw [overviewLineM, if_neg (by omega), h0, h6, h7, hd]
  · intro lines
    induction lines with
    | nil =>
      intro line e hm
      simp at hm
    | cons l rest ih =>
      intro line e hm herr
      rw [overviewListM]
      rcases List.mem_cons.mp hm with rfl | hm2
      · rw [herr]
        exact ⟨e, rfl⟩
      · cases hov : overviewLineM zero pd l with
        | error e2 => exact ⟨e2, rfl⟩
        | ok ov =>
          obtain ⟨e2, he2⟩ := ih line e hm2 herr
          rw [he2]
          exact ⟨e2, rfl⟩

/-- Sample OVER line from the specification. -/
def ovLineEx : List Char :=
  tl "3\tHello\tuser@x\t01 Jan 24 00:00:00 GMT\t<id1@x>\t<id0@x> <id-1@x>\t120\t5"

theorem overview_decode_spec_witness :
    overviewLineM false (fun _ => none) ovLineEx =
      .ok { MessageNumber := 3, Subject := (ovFields ovLineEx).getD 1 [],
            From := (ovFields ovLineEx).getD 2 [], Date := false,
            MessageId := (ovFields ovLineEx).getD 4 [],
            References := splitAll ' ' ((ovFields ovLineEx).getD 5 []),
            Bytes := 120, Lines := 5, Extra := (ovFields ovLineEx).drop 8 } :=
  (overview_decode_spec false (fun _ => none)).2.2.2.2.1 ovLineEx 3 120 5
    (by decide) (by decide) (by decide) (by decide) rfl

/-- Space or horizontal tab, the continuation/eat set of readKeyValue. -/
def isHT (c : Char) : Bool := c = ' ' || c = '\t'

/-- The trailing characters chopped by readLineBytes (misc.go lines 41-46). -/
def isChopWS (c : Char) : Bool := c = ' ' || c = '\r' || c = '\t' || c = '\n'

/-- The trailing-whitespace chop of readLineBytes. -/
def dropTrailingWS (l : List Char) : List Char := (l.reverse.dropWhile isChopWS).reverse

/-- bytes.Index(line, colon): index of the first colon. -/
def indexOfColon : List Char → Option Nat
  | [] => none
  | c :: t => if c = ':' then some 0 else (indexOfColon t).map (· + 1)

/-!
The header parser consumes a byte stream.  We represent the stream by its
newline decomposition: a list of newline-terminated lines (stored without
the terminator) plus the unterminated tail after the last newline, so the
stream of bytes is (lines.map (fun l => l ++ LF)).join ++ tail with no
newline inside any entry.  readLineBytes (misc.go lines 30-48) turns
io.EOF into io.ErrUnexpectedEOF when no full line is available, discarding
a partial tail, and chops trailing whitespace.
-/

/-- readLineBytes on the decomposed stream. -/
def readLineBytesL : List (List Char) → List Char →
    Except NErr (List Char × List (List Char) × List Char)
  | [], _ => .error .unexpectedEnd
  | l :: ls, t => .ok (dropTrailingWS l, ls, t)

/-- The continuation loop of readKeyValue (misc.go lines 86-111): peek one
byte; a space or tab starts a continuation: eat the leading whitespace
(end of stream while eating is io.ErrUnexpectedEOF, as is an unterminated
tail), read the rest of the line, and append it to the value with exactly
one space; any other byte is pushed back and ends the value. -/
def readKVLoopL (value : List Char) : List (List Char) → List Char →
    Except NErr (List Char × List (List Char) × List Char)
  | [], [] => .ok (value, [], [])
  | [], c :: t2 =>
    if isHT c then .error .unexpectedEnd
    else .ok (value, [], c :: t2)
  | l :: ls, t =>
    if isHT (l.headD '\n') then
      readKVLoopL (value ++ ' ' :: dropTrailingWS (l.dropWhile isHT)) ls t
    else .ok (value, l :: ls, t)

/-- readKeyValue (misc.go lines 54-116): end of stream at a line start is
reported as success with an empty key (the Go code maps ErrUnexpectedEOF
to a nil error); an empty (or all-whitespace) line ends the header block;
otherwise the line must contain a colon, the key (no spaces allowed) is
the part before it, and the value is the remainder with leading
space/tab skipped, extended by continuation lines. -/
def readKeyValueL (lines : List (List Char)) (t : List Char) :
    Except NErr (List Char × List Char × List (List Char) × List Char) :=
  match readLineBytesL lines t with
  | .error .unexpectedEnd => .ok ([], [], [], [])
  | .error e => .error e
  | .ok (line, ls, t2) =>
    if line = [] then .ok ([], [], ls, t2)
    else
      match indexOfColon line with
      | none => .error (.protocolErr (tl "malformed header line: " ++ line))
      | some i =>
        if ' ' ∈ line.take i then .error (.protocolErr (tl "malformed header line: " ++ line))
        else
          match readKVLoopL ((line.drop (i + 1)).dropWhile isHT) ls t2 with
          | .error e => .error e
          | .ok (v, ls2, t3) => .ok (line.take i, v, ls2, t3)

/-- The map update of Conn.readHeader (nntp.go lines 511-519): Go maps are
modelled extensionally as functions defaulting to the empty list; a new
value is appended to the existing list of values for the canonical key. -/
def hUpdate (m : List Char → List (List Char)) (k v : List Char) :
    List Char → List (List Char) :=
  fun q => if q = k then m k ++ [v] else m q

/-- The loop of Conn.readHeader (nntp.go lines 500-520); the fuel argument
only bounds the recursion and is immaterial whenever it exceeds the number
of lines (theorem readHeaderGo_fuel_mono). -/
def readHeaderGo (canon : List Char → List Char) (m : List Char → List (List Char)) :
    Nat → List (List Char) → List Char → Except NErr (List Char → List (List Char))
  | 0, _, _ => .error .unexpectedEnd
  | fuel + 1, lines, t =>
    match readKeyValueL lines t with
    | .error e => .error e
    | .ok (key, value, ls2, t2) =>
      if key = [] then .ok m
      else readHeaderGo canon (hUpdate m (canon key) value) fuel ls2 t2

/-- Conn.readHeader (nntp.go lines 497-522), parameterized by the header
key canonicalization (http.CanonicalHeaderKey, an external collaborator). -/
def readHeaderL (canon : List Char → List Char) (lines : List (List Char)) (t : List Char) :
    Except NErr (List Char → List (List Char)) :=
  readHeaderGo canon (fun _ => []) (lines.length + 1) lines t

theorem readKVLoopL_lines_le :
    ∀ (ls : List (List Char)) (value t v : List Char) (ls2 : List (List Char)) (t2 : List Char),
      readKVLoopL value ls t = .ok (v, ls2, t2) → ls2.length ≤ ls.length := by
  intro ls
  induction ls with
  | nil =>
    intro value t v ls2 t2 h
    cases t with
    | nil =>
      rw [readKVLoopL] at h
      simp only [Except.ok.injEq, Prod.mk.injEq] at h
      obtain ⟨-, h2, -⟩ := h
      subst h2
      exact Nat.le_refl _
    | cons c t3 =>
      rw [readKVLoopL] at h
      by_cases hc : isHT c
      · rw [if_pos hc] at h
        cases h
      · rw [if_neg hc] at h
        simp only [Except.ok.injEq, Prod.mk.injEq] at h
        obtain ⟨-, h2, -⟩ := h
        subst h2
        exact Nat.le_refl _
  | cons l ls ih =>
    intro value t v ls2 t2 h
    rw [readKVLoopL] at h
    by_cases hc : isHT (l.headD '\n')
    · rw [if_pos hc] at h
      have := ih _ t v ls2 t2 h
      simp only [List.length_cons]
      omega
    · rw [if_neg hc] at h
      simp only [Except.ok.injEq, Prod.mk.injEq] at h
      obtain ⟨-, h2, -⟩ := h
      subst h2
      exact Nat.le_refl _

theorem readKeyValueL_lines_lt (lines : List (List Char)) (t k v : List Char)
    (ls2 : List (List Char)) (t2 : List Char)
    (h : readKeyValueL lines t = .ok (k, v, ls2, t2)) (hk : k ≠ []) :
    ls2.length < lines.length := by
  rw [readKeyValueL] at h
  cases lines with
  | nil =>
    simp only [readLineBytesL] at h
    simp only [Except.ok.injEq, Prod.mk.injEq] at h
    exact absurd h.1.symm hk
  | cons l ls =>
    simp only [readLineBytesL] at h
    by_cases hl : dropTrailingWS l = []
    · rw [if_pos hl] at h
      simp only [Except.ok.injEq, Prod.mk.injEq] at h
      exact absurd h.1.symm hk
    · rw [if_neg hl] at h
      cases hio : indexOfColon (dropTrailingWS l) with
      | none =>
        rw [hio] at h
        dsimp only at h
        cases h
      | some i =>
        rw [hio] at h
        dsimp only at h
        by_cases hsp : ' ' ∈ (dropTrailingWS l).take i
        · rw [if_pos hsp] at h
          cases h
        · rw [if_neg hsp] at h
          cases hlp : readKVLoopL (((dropTrailingWS l).drop (i + 1)).dropWhile isHT) ls t with
          | error e =>
            rw [hlp] at h
            cases h
          | ok p =>
            obtain ⟨v3, ls3, t3⟩ := p
            rw [hlp] at h
            simp only [Except.ok.injEq, Prod.mk.injEq] at h
            obtain ⟨-, -, h3, -⟩ := h
            subst h3
            have := readKVLoopL_lines_le ls _ t v3 ls3 t3 hlp
            simp only [List.length_cons]
            omega

theorem readHeaderGo_fuel_mono (canon : List Char → List Char) :
    ∀ (f1 f2 : Nat) (lines : List (List Char)) (t : List Char)
      (m : List Char → List (List Char)),
      lines.length < f1 → f1 ≤ f2 →
      readHeaderGo canon m f1 lines t = readHeaderGo canon m f2 lines t := by
  intro f1
  induction f1 with
  | zero =>
    intro f2 lines t m h1 h2
    exact absurd h1 (by omega)
  | succ f ih =>
    intro f2 lines t m h1 h2
    cases f2 with
    | zero => omega
    | succ g =>
      rw [readHeaderGo, readHeaderGo]
      cases hkv : readKeyValueL lines t with
      | error e => rfl
      | ok p =>
        obtain ⟨key, value, ls2, t2⟩ := p
        dsimp only
        by_cases hk : key = []
        · rw [if_pos hk, if_pos hk]
        · rw [if_neg hk, if_neg hk]
          have hlt := readKeyValueL_lines_lt lines t key value ls2 t2 hkv hk
          exact ih g ls2 t2 _ (by omega) (by omega)

theorem dropWhile_length_le (p : Char → Bool) (l : List Char) :
    (l.dropWhile p).length ≤ l.length := by
  induction l with
  | nil => simp [List.dropWhile]
  | cons c t ih =>
    rw [List.dropWhile_cons]
    by_cases hc : p c
    · rw [if_pos hc]
      simp only [List.length_cons]
      omega
    · rw [if_neg hc]

theorem dropTrailingWS_append (u v : List Char) (hv : v ≠ []) (hdv : dropTrailingWS v = v) :
    dropTrailingWS (u ++ v) = u ++ v := by
  obtain ⟨c, vr, hrev⟩ : ∃ c vr, v.reverse = c :: vr := by
    cases hr : v.reverse with
    | nil =>
      exfalso
      apply hv
      have := congrArg List.reverse hr
      simpa using this
    | cons c vr => exact ⟨c, vr, rfl⟩
  have hdrop : v.reverse.dropWhile isChopWS = v.reverse := by
    have h2 := congrArg List.reverse hdv
    rw [dropTrailingWS] at h2
    simpa using h2
  have hc : ¬ (isChopWS c = true) := by
    intro hct
    rw [hrev, List.dropWhile_cons, if_pos hct] at hdrop
    have hlen := congrArg List.length hdrop
    have hle := dropWhile_length_le isChopWS vr
    simp at hlen
    omega
  rw [dropTrailingWS, List.reverse_append, hrev, List.cons_append,
    List.dropWhile_cons, if_neg hc, ← List.cons_append, ← hrev,
    ← List.reverse_append, List.reverse_reverse]

theorem indexOfColon_append (k r : List Char) (hk : ':' ∉ k) :
    indexOfColon (k ++ ':' :: r) = some k.length := by
  induction k with
  | nil =>
    rw [List.nil_append, indexOfColon, if_pos rfl]
    rfl
  | cons c t ih =>
    have hc : ¬ (c = ':') := fun h => hk (by rw [h]; exact List.mem_cons_self _ _)
    rw [List.cons_append, indexOfColon, if_neg hc,
      ih (fun hm => hk (List.mem_cons_of_mem c hm))]
    rfl

/-- Parsing a well-formed header line key: value through readKeyValueL:
the key is everything before the colon, the initial value the remainder
after skipping leading whitespace, then the continuation loop runs. -/
theorem readKeyValueL_header_line (k v1 : List Char) (ls : List (List Char)) (t : List Char)
    (hk : k ≠ []) (hkc : ':' ∉ k) (hks : ' ' ∉ k)
    (hv1 : v1 ≠ []) (hv1d : v1.dropWhile isHT = v1) (hv1t : dropTrailingWS v1 = v1) :
    readKeyValueL ((k ++ ':' :: ' ' :: v1) :: ls) t =
      (match readKVLoopL v1 ls t with
       | .error e => .error e
       | .ok (v, ls2, t3) => .ok (k, v, ls2, t3)) := by
  rw [readKeyValueL]
  simp only [readLineBytesL]
  have hline : dropTrailingWS (k ++ ':' :: ' ' :: v1) = k ++ ':' :: ' ' :: v1 := by
    have hre : k ++ ':' :: ' ' :: v1 = (k ++ [':', ' ']) ++ v1 := by simp
    rw [hre]
    exact dropTrailingWS_append _ v1 hv1 hv1t
  rw [hline]
  have hne : ¬ (k ++ ':' :: ' ' :: v1 = []) := by simp
  rw [if_neg hne, indexOfColon_append k (' ' :: v1) hkc]
  dsimp only
  have htake : (k ++ ':' :: ' ' :: v1).take k.length = k := List.take_left k _
  rw [htake, if_neg hks]
  have hdrop : ((k ++ ':' :: ' ' :: v1).drop (k.length + 1)).dropWhile isHT = v1 := by
    have h2 : k ++ ':' :: ' ' :: v1 = (k ++ [':']) ++ ' ' :: v1 := by simp
    have h3 : k.length + 1 = (k ++ [':']).length := by simp
    rw [h2, h3, List.drop_left, List.dropWhile_cons, if_pos (by decide), hv1d]
  rw [hdrop]

/-- One continuation line folded into the value with exactly one space. -/
theorem readKVLoopL_cont (value l : List Char) (ls : List (List Char)) (t : List Char)
    (hl : isHT (l.headD '\n') = true) :
    readKVLoopL value (l :: ls) t =
      readKVLoopL (value ++ ' ' :: dropTrailingWS (l.dropWhile isHT)) ls t := by
  rw [readKVLoopL, if_pos hl]

/-- The continuation loop stops before a line whose first byte is not
space or tab. -/
theorem readKVLoopL_stop (value l : List Char) (ls : List (List Char)) (t : List Char)
    (hl : ¬ (isHT (l.headD '\n') = true)) :
    readKVLoopL value (l :: ls) t = .ok (value, l :: ls, t) := by
  rw [readKVLoopL, if_neg hl]

theorem readHeaderGo_step_field (canon : List Char → List Char)
    (m : List Char → List (List Char)) (fuel : Nat) (lines : List (List Char))
    (t k value : List Char) (ls2 : List (List Char)) (t2 : List Char)
    (hkv : readKeyValueL lines t = .ok (k, value, ls2, t2)) (hk : k ≠ []) :
    readHeaderGo canon m (fuel + 1) lines t =
      readHeaderGo canon (hUpdate m (canon k) value) fuel ls2 t2 := by
  rw [readHeaderGo, hkv]
  dsimp only
  rw [if_neg hk]

theorem readHeaderGo_step_done (canon : List Char → List Char)
    (m : List Char → List (List Char)) (fuel : Nat) (lines : List (List Char))
    (t value : List Char) (ls2 : List (List Char)) (t2 : List Char)
    (hkv : readKeyValueL lines t = .ok ([], value, ls2, t2)) :
    readHeaderGo canon m (fuel + 1) lines t = .ok m := by
  rw [readHeaderGo, hkv]
  dsimp only
  rw [if_pos rfl]

theorem readHeaderGo_step_err (canon : List Char → List Char)
    (m : List Char → List (List Char)) (fuel : Nat) (lines : List (List Char))
    (t : List Char) (e : NErr)
    (hkv : readKeyValueL lines t = .error e) :
    readHeaderGo canon m (fuel + 1) lines t = .error e := by
  rw [readHeaderGo, hkv]

/-- C5 counterexample: the header container is a Go map (unordered); two
header blocks listing the same fields in different orders produce equal
header maps, so the map cannot preserve the original field order of first
occurrence. -/
theorem readHeader_forgets_order :
    readHeaderL (fun q => q) [tl "A: 1", tl "B: 2", []] [] =
      readHeaderL (fun q => q) [tl "B: 2", tl "A: 1", []] [] ∧
    [tl "A: 1", tl "B: 2", ([] : List Char)] ≠ [tl "B: 2", tl "A: 1", []] := by
  constructor
  · have h1 : readHeaderL (fun q => q) [tl "A: 1", tl "B: 2", []] [] =
        .ok (hUpdate (hUpdate (fun _ => []) (tl "A") (tl "1")) (tl "B") (tl "2")) := rfl
    have h2 : readHeaderL (fun q => q) [tl "B: 2", tl "A: 1", []] [] =
        .ok (hUpdate (hUpdate (fun _ => []) (tl "B") (tl "2")) (tl "A") (tl "1")) := rfl
    rw [h1, h2]
    have hab : (tl "A" : List Char) ≠ tl "B" := by decide
    congr 1
    funext q
    by_cases hqa : q = tl "A" <;> by_cases hqb : q = tl "B" <;>
      simp_all [hUpdate]
  · decide

/-- C5 (amended): the folded-header decoder joins every continuation line
to its field value with exactly one space (whatever the amount of leading
whitespace), and repeated field names whose canonicalizations coincide
keep their values as separate list entries in order of occurrence, never
concatenated; but the header map is extensional (a Go map) and does not
record the order of first occurrence of fields. -/
theorem readHeader_join_and_duplicates :
    (∀ (canon : List Char → List Char) (k v1 v2 v3 : List Char),
      k ≠ [] → ':' ∉ k → ' ' ∉ k →
      v1 ≠ [] → v1.dropWhile isHT = v1 → dropTrailingWS v1 = v1 →
      v2 ≠ [] → v2.dropWhile isHT = v2 → dropTrailingWS v2 = v2 →
      v3 ≠ [] → v3.dropWhile isHT = v3 → dropTrailingWS v3 = v3 →
      ∃ m, readHeaderL canon
          [k ++ ':' :: ' ' :: v1, ' ' :: v2, '\t' :: '\t' :: v3, []] [] = .ok m ∧
        m (canon k) = [(v1 ++ ' ' :: v2) ++ ' ' :: v3] ∧
        ∀ q, q ≠ canon k → m q = []) ∧
    (∀ (canon : List Char → List Char) (k1 k2 v w : List Char),
      k1 ≠ [] → ':' ∉ k1 → ' ' ∉ k1 →
      k2 ≠ [] → ':' ∉ k2 → ' ' ∉ k2 → '\t' ∉ k2 →
      v ≠ [] → v.dropWhile isHT = v → dropTrailingWS v = v →
      w ≠ [] → w.dropWhile isHT = w → dropTrailingWS w = w →
      canon k1 = canon k2 →
      ∃ m, readHeaderL canon
          [k1 ++ ':' :: ' ' :: v, k2 ++ ':' :: ' ' :: w, []] [] = .ok m ∧
        m (canon k1) = [v, w]) := by
  constructor
  · intro canon k v1 v2 v3 hk hkc hks hv1 hv1d hv1t hv2 hv2d hv2t hv3 hv3d hv3t
    refine ⟨hUpdate (fun _ => []) (canon k) ((v1 ++ ' ' :: v2) ++ ' ' :: v3), ?_, ?_, ?_⟩
    · have hkv1 : readKeyValueL
          ((k ++ ':' :: ' ' :: v1) :: [' ' :: v2, '\t' :: '\t' :: v3, []]) [] =
          .ok (k, (v1 ++ ' ' :: v2) ++ ' ' :: v3, [([] : List Char)], []) := by
        rw [readKeyValueL_header_line k v1 _ _ hk hkc hks hv1 hv1d hv1t]
        have hl1 : readKVLoopL v1 ((' ' :: v2) :: ['\t' :: '\t' :: v3, []]) [] =
            readKVLoopL (v1 ++ ' ' :: v2) ['\t' :: '\t' :: v3, []] [] := by
          rw [readKVLoopL_cont _ _ _ _ (by simp [isHT])]
          rw [show (' ' :: v2).dropWhile isHT = v2 from by
            rw [List.dropWhile_cons, if_pos (by decide), hv2d]]
          rw [hv2t]
        have hl2 : readKVLoopL (v1 ++ ' ' :: v2) (('\t' :: '\t' :: v3) :: [[]]) [] =
            readKVLoopL ((v1 ++ ' ' :: v2) ++ ' ' :: v3) [[]] [] := by
          rw [readKVLoopL_cont _ _ _ _ (by simp [isHT])]
          rw [show ('\t' :: '\t' :: v3).dropWhile isHT = v3 from by
            rw [List.dropWhile_cons, if_pos (by decide), List.dropWhile_cons,
              if_pos (by decide), hv3d]]
          rw [hv3t]
        have hl3 : readKVLoopL ((v1 ++ ' ' :: v2) ++ ' ' :: v3) [([] : List Char)] [] =
            .ok ((v1 ++ ' ' :: v2) ++ ' ' :: v3, [([] : List Char)], []) :=
          readKVLoopL_stop _ _ _ _ (by decide)
        rw [hl1, hl2, hl3]
      rw [readHeaderL]
      rw [readHeaderGo_step_field _ _ _ _ _ _ _ _ _ hkv1 hk]
      rw [List.length_cons]
      exact readHeaderGo_step_done _ _ _ _ _ _ _ _ rfl
    · simp [hUpdate]
    · intro q hq
      simp [hUpdate, hq]
  · intro canon k1 k2 v w hk1 hk1c hk1s hk2 hk2c hk2s hk2t hv hvd hvt hw hwd hwt hcc
    have hstop : ¬ (isHT ((k2 ++ ':' :: ' ' :: w).headD '\n') = true) := by
      cases k2 with
      | nil => exact absurd rfl hk2
      | cons c t =>
        intro hht
        simp only [List.cons_append, List.headD_cons, isHT, Bool.or_eq_true,
          decide_eq_true_eq] at hht
        rcases hht with rfl | rfl
        · exact hk2s (List.mem_cons_self _ _)
        · exact hk2t (List.mem_cons_self _ _)
    refine ⟨hUpdate (hUpdate (fun _ => []) (canon k1) v) (canon k2) w, ?_, ?_⟩
    · have hkv1 : readKeyValueL
          ((k1 ++ ':' :: ' ' :: v) :: [k2 ++ ':' :: ' ' :: w, []]) [] =
          .ok (k1, v, [k2 ++ ':' :: ' ' :: w, []], []) := by
        rw [readKeyValueL_header_line k1 v _ _ hk1 hk1c hk1s hv hvd hvt]
        rw [readKVLoopL_stop _ _ _ _ hstop]
      have hkv2 : readKeyValueL ((k2 ++ ':' :: ' ' :: w) :: [[]]) [] =
          .ok (k2, w, [([] : List Char)], []) := by
        rw [readKeyValueL_header_line k2 w _ _ hk2 hk2c hk2s hw hwd hwt]
        rw [readKVLoopL_stop _ _ _ _ (by decide)]
      rw [readHeaderL]
      rw [readHeaderGo_step_field _ _ _ _ _ _ _ _ _ hkv1 hk1]
      rw [List.length_cons]
      rw [readHeaderGo_step_field _ _ _ _ _ _ _ _ _ hkv2 hk2]
      rw [List.length_cons]
      exact readHeaderGo_step_done _ _ _ _ _ _ _ _ rfl
    · simp only [hUpdate]
      rw [if_pos hcc, if_pos hcc.symm]
      simp

theorem readHeader_join_and_duplicates_witness :
    (∃ m, readHeaderL (fun q => q)
        [tl "Key" ++ ':' :: ' ' :: tl "a", ' ' :: tl "b", '\t' :: '\t' :: tl "c", []] [] =
          .ok m ∧
      m ((fun q => q) (tl "Key")) = [(tl "a" ++ ' ' :: tl "b") ++ ' ' :: tl "c"] ∧
      ∀ q, q ≠ (fun q => q) (tl "Key") → m q = []) ∧
    (∃ m, readHeaderL (fun _ => tl "Subject")
        [tl "subject" ++ ':' :: ' ' :: tl "v", tl "SUBJECT" ++ ':' :: ' ' :: tl "w", []] [] =
          .ok m ∧
      m ((fun _ => tl "Subject") (tl "subject")) = [tl "v", tl "w"]) :=
  ⟨readHeader_join_and_duplicates.1 (fun q => q) (tl "Key") (tl "a") (tl "b") (tl "c")
      (by decide) (by decide) (by decide) (by decide) (by decide) (by decide)
      (by decide) (by decide) (by decide) (by decide) (by decide) (by decide),
   readHeader_join_and_duplicates.2 (fun _ => tl "Subject") (tl "subject") (tl "SUBJECT")
      (tl "v") (tl "w")
      (by decide) (by decide) (by decide) (by decide) (by decide) (by decide) (by decide)
      (by decide) (by decide) (by decide) (by decide) (by decide) (by decide) rfl⟩

/-- C6 counterexample: a stream that ends after one header line, before
any blank-line terminator, parses successfully with the fields read so
far instead of returning an error: readKeyValue maps the unexpected end
of data to a nil error. -/
theorem readHeader_eof_silent_success :
    readHeaderL (fun q => q) [tl "Subject: hi"] [] =
      .ok (hUpdate (fun _ => []) (tl "Subject") (tl "hi")) ∧
    hUpdate (fun _ => []) (tl "Subject") (tl "hi") (tl "Subject") = [tl "hi"] := by
  constructor
  · rfl
  · rfl

/-- C6 (amended): end-of-stream at the start of a header line (including
an unterminated partial line, which is discarded) terminates the header
block as a silent success with the fields read so far; only end-of-stream
while skipping the leading whitespace of a continuation line is reported
as an error (io.ErrUnexpectedEOF). -/
theorem readHeader_eof_amended :
    (∀ (canon : List Char → List Char) (t : List Char),
      readHeaderL canon [] t = .ok (fun _ => [])) ∧
    (∀ (canon : List Char → List Char) (k v t2 : List Char),
      k ≠ [] → ':' ∉ k → ' ' ∉ k →
      v ≠ [] → v.dropWhile isHT = v → dropTrailingWS v = v →
      readHeaderL canon [k ++ ':' :: ' ' :: v] (' ' :: t2) = .error .unexpectedEnd) := by
  constructor
  · intro canon t
    rfl
  · intro canon k v t2 hk hkc hks hv hvd hvt
    have hkv : readKeyValueL [k ++ ':' :: ' ' :: v] (' ' :: t2) = .error .unexpectedEnd := by
      rw [readKeyValueL_header_line k v [] (' ' :: t2) hk hkc hks hv hvd hvt]
      rw [show readKVLoopL v [] (' ' :: t2) = .error .unexpectedEnd from by
        rw [readKVLoopL, if_pos (by decide)]]
    rw [readHeaderL]
    exact readHeaderGo_step_err canon _ _ _ _ _ hkv

theorem readHeader_eof_amended_witness :
    readHeaderL (fun q => q) [] (tl "Subject: hi") = .ok (fun _ => []) ∧
    readHeaderL (fun q => q) [tl "Subject" ++ ':' :: ' ' :: tl "hi"] (' ' :: tl "x") =
      .error .unexpectedEnd :=
  ⟨readHeader_eof_amended.1 (fun q => q) (tl "Subject: hi"),
   readHeader_eof_amended.2 (fun q => q) (tl "Subject") (tl "hi") (tl "x")
     (by decide) (by decide) (by decide) (by decide) (by decide) (by decide)⟩
